import Mathlib

/-!
Shallow embedding of the migration resolution and orchestration engine of
the `acls/migrate` repository (packages `file`, `migrate`, `driver/pgx`),
together with theorems settling the frozen claims about it.

Conventions of the embedding:
* Go machine integers `uint64` are modelled as `Nat` (none of the embedded
  code overflows: versions are only incremented).
* A Go slice is a `List`; `sort.Sort` on a slice mutates it in place, so
  every embedded function that sorts its receiver returns the new state of
  the receiver alongside its result.
* File content (`[]byte`) is a `List Nat`; `ReadContent` (lazy loading from
  disk) is modelled as already-loaded content and is assumed not to fail,
  as are `conn.Begin`, `tx.Commit` and the driver file-content updates.
  Script execution (`driver.Migrate`) can fail and is driven by an explicit
  oracle, mirroring the only failure source the claims are about.
* The event/cancellation pipe package (`pipe`) is not part of the sources;
  where a claim depends on it, it is modelled from the spec (marked below).
-/

namespace Migrate

/-- Version of a migration: the `version` struct of `file/file.go`
(fields `major`, `minor`, both `uint64`). -/
structure Version where
  major : Nat
  minor : Nat
deriving DecidableEq, Repr

/-- `(*version).Compare` of `file/file.go`: -1 / 1 / 0 for less / greater / equal,
major compared first, then minor. -/
def Version.compare (v other : Version) : Int :=
  if v.major < other.major ∨ (v.major = other.major ∧ v.minor < other.minor) then -1
  else if v.major > other.major ∨ (v.major = other.major ∧ v.minor > other.minor) then 1
  else 0

/-- `(*version).Inc` of `file/file.go`: bumping major sets minor to 1 and
increments major; otherwise minor increments. -/
def Version.inc (v : Version) (major : Bool) : Version :=
  if major then ⟨v.major + 1, 1⟩ else ⟨v.major, v.minor + 1⟩

/-- `direction.Direction` of `migrate/direction`: an up or a down migration. -/
inductive Direction
  | up
  | down
deriving DecidableEq, Repr

/-- `file.MigrationFile`: a version paired with its up and its down file.
Of the `File` halves only the content bytes are kept (name, open callback and
direction tag play no role in the claims; the up/down split is the field). -/
structure MigrationFile where
  version : Version
  upContent : List Nat
  downContent : List Nat
deriving DecidableEq, Repr

/-- `file.Migration`: a `MigrationFile` bound to one direction. -/
structure Migration where
  version : Version
  migrationFile : MigrationFile
  d : Direction
deriving DecidableEq, Repr

/-- `Migration.Up()` of `file/file.go`: true unless the direction is Down. -/
def Migration.upDir (m : Migration) : Bool := m.d ≠ Direction.down

/-- `MigrationFile.Migration` of `file/file.go`. -/
def MigrationFile.migration (mf : MigrationFile) (d : Direction) : Migration :=
  ⟨mf.version, mf, d⟩

/-- The strict order used by `MigrationFiles.Less` (`Compare < 0`),
relaxed to `≤` so that it is total for `List.insertionSort`. -/
def vle (a b : MigrationFile) : Prop := a.version.compare b.version ≤ 0

instance : DecidableRel vle := fun a b => by unfold vle; infer_instance

/-- The reversed order used by `sort.Sort(sort.Reverse(mf))`. -/
def vge (a b : MigrationFile) : Prop := b.version.compare a.version ≤ 0

instance : DecidableRel vge := fun a b => by unfold vge; infer_instance

/-- `sort.Sort(mf)`: ascending in-place sort of a `MigrationFiles` slice.
(Go's sort is unstable; on version-unique collections — the invariant
enforced at construction — any correct sort produces the same list.) -/
def sortAsc (mf : List MigrationFile) : List MigrationFile := mf.insertionSort vle

/-- `sort.Sort(sort.Reverse(mf))`: descending in-place sort. -/
def sortDesc (mf : List MigrationFile) : List MigrationFile := mf.insertionSort vge

/-- The order of `Migrations.Less`, reversed, for
`sort.Sort(sort.Reverse(migrations))` in `FromTo`. -/
def mge (a b : Migration) : Prop := b.version.compare a.version ≤ 0

instance : DecidableRel mge := fun a b => by unfold mge; infer_instance

/-- descending sort of a `Migrations` slice. -/
def sortMigDesc (ms : List Migration) : List Migration := ms.insertionSort mge

/-- `MigrationFiles.LastVersion` of `file/file.go`: the last element's
version, or `NewVersion2(0, 0)` when the collection is empty. -/
def LastVersion (mf : List MigrationFile) : Version :=
  match mf.getLast? with
  | some m => m.version
  | none => ⟨0, 0⟩

/-- `MigrationFiles.DownTo` of `file/file.go`: descending sort, then collect
down migrations until (exclusive) the first file with version `≤ dstVersion`
(the loop `break`s there).  First component: the receiver's state after the
in-place sort. -/
def DownTo (mf : List MigrationFile) (dstVersion : Version) :
    List MigrationFile × List Migration :=
  (sortDesc mf, downToLoop dstVersion (sortDesc mf))
where
  downToLoop (dstVersion : Version) : List MigrationFile → List Migration
    | [] => []
    | m :: rest =>
      if m.version.compare dstVersion ≤ 0 then []
      else m.migration Direction.down :: downToLoop dstVersion rest

/-- `MigrationFiles.ToFirstFrom` of `file/file.go`: descending sort, then all
files with version `≤ version` as down migrations (no break). -/
def ToFirstFrom (mf : List MigrationFile) (version : Version) :
    List MigrationFile × List Migration :=
  (sortDesc mf,
    ((sortDesc mf).filter (fun m => m.version.compare version ≤ 0)).map
      (fun m => m.migration Direction.down))

/-- `MigrationFiles.ToLastFrom` of `file/file.go`: ascending sort, then all
files with version `> version` as up migrations. -/
def ToLastFrom (mf : List MigrationFile) (version : Version) :
    List MigrationFile × List Migration :=
  (sortAsc mf,
    ((sortAsc mf).filter (fun m => 0 < m.version.compare version)).map
      (fun m => m.migration Direction.up))

/-- The loop of `MigrationFiles.FromTo`: skip files `≤ start`; a file
`> stop` returns early (second component `true`); otherwise collect. -/
def fromToLoop (d : Direction) (startV stopV : Version) :
    List MigrationFile → List Migration × Bool
  | [] => ([], false)
  | m :: rest =>
    if m.version.compare startV ≤ 0 then fromToLoop d startV stopV rest
    else if 0 < m.version.compare stopV then ([], true)
    else
      let r := fromToLoop d startV stopV rest
      (m.migration d :: r.1, r.2)

/-- `MigrationFiles.FromTo` of `file/file.go`: equal versions give the empty
plan; otherwise direction is up iff `start < stop` (swapping the bounds when
going down), the collected ascending run is reversed for down — unless the
loop returned early, which skips the reversal (mirrored exactly). -/
def FromTo (mf : List MigrationFile) (startVersion stopVersion : Version) :
    List MigrationFile × List Migration :=
  if startVersion.compare stopVersion = 0 then (mf, [])
  else
    let d := if 0 < startVersion.compare stopVersion then Direction.down else Direction.up
    let s := if 0 < startVersion.compare stopVersion then stopVersion else startVersion
    let e := if 0 < startVersion.compare stopVersion then startVersion else stopVersion
    let sorted := sortAsc mf
    let r := fromToLoop d s e sorted
    if r.2 then (sorted, r.1)
    else (sorted, if d = Direction.down then sortMigDesc r.1 else r.1)

/-- The loop of `MigrationFiles.From`: while the counter is positive, a
qualifying file is collected and decrements the counter; the loop breaks
when the counter reaches zero. -/
def fromLoop (d : Direction) (version : Version) :
    Nat → List MigrationFile → List Migration
  | _, [] => []
  | 0, _ :: _ => []
  | n + 1, m :: rest =>
    match d with
    | Direction.up =>
      if 0 < m.version.compare version then
        m.migration Direction.up :: fromLoop d version n rest
      else fromLoop d version (n + 1) rest
    | Direction.down =>
      if m.version.compare version ≤ 0 then
        m.migration Direction.down :: fromLoop d version n rest
      else fromLoop d version (n + 1) rest

/-- `MigrationFiles.From` of `file/file.go`: `relativeN = 0` returns nil
without sorting; positive walks the ascending sort collecting the next `N`
up migrations `> version`; negative walks the descending sort collecting
the next `|N|` down migrations `≤ version`. -/
def FromN (mf : List MigrationFile) (version : Version) (relativeN : Int) :
    List MigrationFile × List Migration :=
  if relativeN = 0 then (mf, [])
  else if 0 < relativeN then
    (sortAsc mf, fromLoop Direction.up version relativeN.toNat (sortAsc mf))
  else
    (sortDesc mf, fromLoop Direction.down version (-relativeN).toNat (sortDesc mf))

/-- The loop of `MigrationFiles.MissingVersion` of `file/file.go`: walk with
the next `expected` version; on mismatch, past the first element and in V2
mode the expectation may bump to the next major (minor 1); a second mismatch
returns the (possibly bumped) expected version. `v2` is the `file.V2` global
threaded as a parameter; `first` tracks `i == 0`. -/
def missingVersionLoop (v2 : Bool) :
    Bool → Version → List MigrationFile → Option Version
  | _, _, [] => none
  | first, expected, m :: rest =>
    if m.version.compare expected ≠ 0 then
      if v2 ∧ first = false then
        if m.version.compare (expected.inc true) ≠ 0 then some (expected.inc true)
        else missingVersionLoop v2 false ((expected.inc true).inc false) rest
      else some expected
    else missingVersionLoop v2 false (expected.inc false) rest

/-- `MigrationFiles.MissingVersion` of `file/file.go`. -/
def MissingVersion (v2 : Bool) (mf : List MigrationFile) : Option Version :=
  missingVersionLoop v2 true ⟨0, 1⟩ mf

/-- Follows the spec's words (§4.2/§8, claim C9): the versions are
contiguous after `prev` when each next one is the minor successor within the
same major block or (in V2 mode) the first minor of the next major block. -/
def contiguousFrom (v2 : Bool) : Version → List Version → Bool
  | _, [] => true
  | prev, v :: rest =>
    (v = ⟨prev.major, prev.minor + 1⟩ ∨ (v2 ∧ v = ⟨prev.major + 1, 1⟩)) ∧
      contiguousFrom v2 v rest

/-- Follows the spec's words (claim C9): consecutive minors starting at 1
within each major block, first element at version (0,1). -/
def contiguous (v2 : Bool) : List Version → Bool
  | [] => true
  | v :: rest => v = (⟨0, 1⟩ : Version) ∧ contiguousFrom v2 v rest

/-- The error outcomes of `Between` / `ValidateBaseFiles` in `file/file.go`,
distinguished by which `fmt.Errorf` produced them. -/
inductive MErr
  | noFiles
  | lessFiles
  | missingVersion (v : Version)
  | versionMismatch (expected got : Version)
  | contentMismatch (v : Version)
  | execFailed
deriving DecidableEq, Repr

/-- Whether an error is the base-upfile content-mismatch error. -/
def MErr.isContentMismatch : MErr → Bool
  | MErr.contentMismatch _ => true
  | _ => false

/-- The positional loop of `MigrationFiles.ValidateBaseFiles`: for each
index up to the previous files' length, versions must agree and up-file
contents must be byte-identical. -/
def validateLoop : List (MigrationFile × MigrationFile) → Option MErr
  | [] => none
  | (prev, file) :: rest =>
    if prev.version.compare file.version ≠ 0 then
      some (MErr.versionMismatch prev.version file.version)
    else if prev.upContent ≠ file.upContent then
      some (MErr.contentMismatch prev.version)
    else validateLoop rest

/-- `MigrationFiles.ValidateBaseFiles` of `file/file.go`: the current
collection must not be shorter than the previous one, must be contiguous
(`MissingVersion` none), and positionally the versions and up-contents must
agree.  `ReadContent` is modelled as infallible (content already loaded). -/
def ValidateBaseFiles (v2 : Bool) (mf prevFiles : List MigrationFile) : Option MErr :=
  if mf.length < prevFiles.length then some MErr.lessFiles
  else
    match MissingVersion v2 mf with
    | some missing => some (MErr.missingVersion missing)
    | none => validateLoop (prevFiles.zip mf)

/-- Result of `MigrationFiles.Between`: Go returns
`(curVersion, dstVersion, migrations, err)`, the version pair being nil on
the no-files error path. -/
structure BetweenResult where
  curVersion : Option Version
  dstVersion : Option Version
  migrations : List Migration
  err : Option MErr
deriving DecidableEq, Repr

/-- `MigrationFiles.Between` of `file/file.go`: empty current set errors;
otherwise sort ascending, take `curVersion` from the previous files and
`dstVersion` from the current ones; advancing (`curVersion ≤ dstVersion`)
validates base files unless forced and plans `ToLastFrom(curVersion)`;
regressing plans `prevFiles.DownTo(dstVersion)`. -/
def Between (v2 : Bool) (mf prevFiles : List MigrationFile) (force : Bool) :
    BetweenResult :=
  if mf = [] then ⟨none, none, [], some MErr.noFiles⟩
  else
    let sorted := sortAsc mf
    let curVersion := LastVersion prevFiles
    let dstVersion := LastVersion sorted
    if curVersion.compare dstVersion ≤ 0 then
      if force = false then
        match ValidateBaseFiles v2 sorted prevFiles with
        | some e => ⟨some curVersion, some dstVersion, [], some e⟩
        | none =>
          ⟨some curVersion, some dstVersion, (ToLastFrom sorted curVersion).2, none⟩
      else ⟨some curVersion, some dstVersion, (ToLastFrom sorted curVersion).2, none⟩
    else ⟨some curVersion, some dstVersion, (DownTo prevFiles dstVersion).2, none⟩

/-- Driver-visible events of one `migrateFiles` run: transaction begin /
commit / rollback, one script execution (`driver.Migrate`) per plan entry,
and one stored-file-content update (`driver.UpdateFiles`) per file. -/
inductive Ev
  | begin
  | commit
  | rollback
  | execMig (m : Migration)
  | updateFile (v : Version)
deriving DecidableEq, Repr

/-- Whether an event is a script execution. -/
def Ev.isExec : Ev → Bool
  | Ev.execMig _ => true
  | _ => false

/-- The versions whose stored file content the `updateFiles` closure
rewrites: every file strictly below `stopAt` over the ascending sort of the
on-disk files (the loop breaks at the first file `≥ stopAt`). -/
def updatedVersions (files : List MigrationFile) (stopAt : Version) : List Version :=
  ((sortAsc files).takeWhile (fun mf => mf.version.compare stopAt < 0)).map
    (fun mf => mf.version)

/-- The `updateFiles` closure of `Migrator.migrateFiles` (migrate/migrate.go):
begin a transaction, rewrite the stored content of every file strictly below
`stopAt`, commit.  The driver update and the commit are modelled as
infallible. -/
def updateFilesEvs (files : List MigrationFile) (stopAt : Version) : List Ev :=
  Ev.begin :: ((updatedVersions files stopAt).map Ev.updateFile) ++ [Ev.commit]

/-- The main loop of `Migrator.migrateFiles`: before each migration, commit
the open transaction when per-file mode is on or the major version changed;
begin when no transaction is open; execute; a failed execution (per the
`execOk` oracle, indexed by plan position) rolls the open transaction back
and aborts; after the last migration the open transaction is committed.
State: `txOpen` (is `tx` non-nil), `prevV` (`prevVersion`), `idx` (plan
position of the head). -/
def migrateLoop (txPerFile : Bool) (execOk : Nat → Bool) :
    Bool → Version → Nat → List Migration → List Ev × Bool
  | _, _, _, [] => ([Ev.commit], true)
  | txOpen, prevV, idx, f :: rest =>
    if txOpen ∧ (txPerFile ∨ prevV.major ≠ f.version.major) then
      if execOk idx then
        let r := migrateLoop txPerFile execOk true f.version (idx + 1) rest
        (Ev.commit :: Ev.begin :: Ev.execMig f :: r.1, r.2)
      else (Ev.commit :: Ev.begin :: [Ev.execMig f, Ev.rollback], false)
    else
      if txOpen then
        if execOk idx then
          let r := migrateLoop txPerFile execOk true f.version (idx + 1) rest
          (Ev.execMig f :: r.1, r.2)
        else (Ev.execMig f :: [Ev.rollback], false)
      else
        if execOk idx then
          let r := migrateLoop txPerFile execOk true f.version (idx + 1) rest
          (Ev.begin :: Ev.execMig f :: r.1, r.2)
        else (Ev.begin :: [Ev.execMig f, Ev.rollback], false)

/-- `Migrator.migrateFiles` of `migrate/migrate.go`: an empty plan only
backfills stored file contents when the driver-recorded previous files exist
and their first up-file has no content; a non-empty plan starting with an up
migration first runs the `updateFiles` preamble up to (exclusive) the first
plan version, then the main loop starting with no open transaction. -/
def migrateFiles (txPerFile : Bool) (execOk : Nat → Bool)
    (prevFiles files : List MigrationFile) (plan : List Migration) :
    List Ev × Bool :=
  match plan with
  | [] =>
    match sortAsc prevFiles with
    | [] => ([], true)
    | first :: _ =>
      if first.upContent = [] then
        (updateFilesEvs files ((LastVersion files).inc true), true)
      else ([], true)
  | first :: _ =>
    let pre := if first.upDir then updateFilesEvs files first.version else []
    let r := migrateLoop txPerFile execOk false ⟨0, 0⟩ 0 plan
    (pre ++ r.1, r.2)

/-- Driver-persisted state as observed through the event trace: migrations
recorded/applied in committed transactions, versions whose stored file
content was rewritten in committed transactions, and the pending
(uncommitted) halves plus the open-transaction flag. -/
structure DB where
  applied : List Migration
  stored : List Version
  pendApplied : List Migration
  pendStored : List Version
  inTx : Bool
deriving DecidableEq, Repr

/-- One event against the database state: begin opens an empty pending set,
commit makes the pending effects durable, rollback discards them. -/
def stepEv (db : DB) : Ev → DB
  | Ev.begin => { db with inTx := true, pendApplied := [], pendStored := [] }
  | Ev.commit =>
    { applied := db.applied ++ db.pendApplied, stored := db.stored ++ db.pendStored,
      pendApplied := [], pendStored := [], inTx := false }
  | Ev.rollback => { db with inTx := false, pendApplied := [], pendStored := [] }
  | Ev.execMig m => { db with pendApplied := db.pendApplied ++ [m] }
  | Ev.updateFile v => { db with pendStored := db.pendStored ++ [v] }

/-- Replay a trace of driver events. -/
def replay (db : DB) (evs : List Ev) : DB := evs.foldl stepEv db

/-- A database state with no transaction open and nothing pending. -/
def cleanDB (applied : List Migration) (stored : List Version) : DB :=
  ⟨applied, stored, [], [], false⟩

/-- `Migrator.Migrate` of `migrate/migrate.go` after `init` read `prevFiles`
(driver-recorded) and `files` (on-disk): `init(conn, true)` validates the
base files against the recorded ones unless `Force` is set (the driver
version is assumed consistent with `prevFiles`, which `init` asserts);
then the plan is `files.From(prevFiles.LastVersion(), relativeN)`, forced
to nil when `relativeN == 0`, and handed to `migrateFiles`. -/
def MigrateRel (v2 : Bool) (txPerFile force : Bool) (execOk : Nat → Bool)
    (prevFiles files : List MigrationFile) (relativeN : Int) :
    List Ev × Option MErr :=
  let l := min prevFiles.length files.length
  let validation := if force then none else ValidateBaseFiles v2 files (prevFiles.take l)
  match validation with
  | some e => ([], some e)
  | none =>
    let r := FromN files (LastVersion prevFiles) relativeN
    let applyMigrations := if relativeN = 0 then [] else r.2
    let run := migrateFiles txPerFile execOk prevFiles r.1 applyMigrations
    (run.1, if run.2 then none else some MErr.execFailed)

/-- Modelled from the spec (§4.4): the pipe package (`pipe.New`,
`pipe.Close`, `pipe.WaitAndRedirect`) is not among the sources.  A channel
run is its finite list of items; a terminal error item is present exactly
when the producing operation failed. -/
inductive Item
  | msg
  | errItem
deriving DecidableEq, Repr

/-- Modelled from the spec (§4.4): the items a `Migrate` run puts on its
pipe — one progress item per driver event and a terminal error item when
the run failed (`pipep.Close(pipe, err)` with non-nil `err`). -/
def runItems (r : List Ev × Option MErr) : List Item :=
  r.1.map (fun _ => Item.msg) ++
    (match r.2 with
     | some _ => [Item.errItem]
     | none => [])

/-- Modelled from the spec (§4.4): `WaitAndRedirect` forwards the
sub-operation's items and watches the cancellation source; the run counts
as failed (`ok = false`) exactly when an error item arrived or a
cancellation was observed before the channel closed. -/
def waitAndRedirect (items : List Item) (cancelled : Bool) : Bool :=
  !(decide (Item.errItem ∈ items) || cancelled)

/-- Result of `Migrator.Redo`: whether the up half was started, the down
run, and the up run when started. -/
structure RedoResult where
  upStarted : Bool
  downRun : List Ev × Option MErr
  upRun : Option (List Ev × Option MErr)
deriving DecidableEq, Repr

/-- `Migrator.Redo` of `migrate/migrate.go`: run `Migrate(-1)` on its own
pipe; wait on it (forwarding items, watching cancellation); when that
returns not-ok, close the outer pipe and stop — otherwise run `Migrate(+1)`
(against the driver state the down half left behind, supplied here as
`prevFilesAfter`). -/
def Redo (v2 : Bool) (txPerFile force : Bool) (execOkDown execOkUp : Nat → Bool)
    (prevFiles files prevFilesAfter : List MigrationFile) (cancelled : Bool) :
    RedoResult :=
  let down := MigrateRel v2 txPerFile force execOkDown prevFiles files (-1)
  if waitAndRedirect (runItems down) cancelled then
    ⟨true, down, some (MigrateRel v2 txPerFile force execOkUp prevFilesAfter files 1)⟩
  else ⟨false, down, none⟩

/-- `Migrator.up` / `Migrator.Up` plan (migrate/migrate.go): the applied
plan for `Up` is `files.ToLastFrom(prevFiles.LastVersion())`. -/
def upPlan (prevFiles files : List MigrationFile) : List Migration :=
  (ToLastFrom files (LastVersion prevFiles)).2

/-- The catalog of schema names, as an assignment of names to schema
identities (the contents a name currently points at). -/
abbrev SchemaState := List (String × Nat)

/-- What a schema name currently points at. -/
def lookupSchema (st : SchemaState) (name : String) : Option Nat :=
  (st.find? (fun p => p.1 = name)).map (fun p => p.2)

/-- Effect of `dropSchema` (`DROP SCHEMA IF EXISTS ... CASCADE`). -/
def dropSchemaEffect (st : SchemaState) (name : String) : SchemaState :=
  st.filter (fun p => p.1 ≠ name)

/-- Effect of `renameSchema` (`ALTER SCHEMA src RENAME TO dst`): move the
binding of `src` to `dst` (no effect when `src` is unbound; failures of the
statement are driven by the oracle in `rotateSchemas`). -/
def renameSchemaEffect (st : SchemaState) (src dst : String) : SchemaState :=
  match lookupSchema st src with
  | none => st
  | some id => dropSchemaEffect st src ++ [(dst, id)]

/-- `WithTransaction` of `driver/pgx/schema_migrator.go`: run the body
against the transaction; an error rolls the transaction back (the
pre-transaction state is kept), success commits the pending state. -/
def WithTransaction (st : SchemaState) (fn : SchemaState → SchemaState × Bool) :
    SchemaState × Bool :=
  match fn st with
  | (st2, true) => (st2, true)
  | (_, false) => (st, false)

/-- The rename loop of `rotateSchemas`: rename each of `schemas[1:]` to the
previous name in turn; `oracle k` decides whether the k-th statement of the
rotation succeeds. -/
def rotateLoop (oracle : Nat → Bool) :
    SchemaState → String → Nat → List String → SchemaState × Bool
  | st, _, _, [] => (st, true)
  | st, prevSchema, k, schema :: rest =>
    if oracle k then
      rotateLoop oracle (renameSchemaEffect st schema prevSchema) schema (k + 1) rest
  else (st, false)

/-- `SchemaMigrator.rotateSchemas` of `driver/pgx/schema_migrator.go`:
begin one transaction (`oracle 0`), and inside it drop the first schema
(`oracle 1`) then rename each following schema to its predecessor
(`oracle (2+i)`); `WithTransaction` commits on success and rolls back on
any failure.  An empty schema list is never passed by the callers (Go would
panic on the index); it is mapped to a failed run. -/
def rotateSchemas (st : SchemaState) (schemas : List String) (oracle : Nat → Bool) :
    SchemaState × Bool :=
  match schemas with
  | [] => (st, false)
  | s0 :: rest =>
    if oracle 0 then
      WithTransaction st (fun pend =>
        if oracle 1 then rotateLoop oracle (dropSchemaEffect pend s0) s0 2 rest
        else (pend, false))
    else (st, false)

/-- Strict order on versions (major first, then minor), the order in which
`Compare` returns -1. -/
def versLt (a b : Version) : Prop :=
  a.major < b.major ∨ (a.major = b.major ∧ a.minor < b.minor)

instance : IsTrans Version versLt :=
  ⟨fun _ _ _ h1 h2 => by
    unfold versLt at *
    omega⟩

/-- Shorthand for building a `MigrationFile` in concrete instances. -/
def mkMF (maj mino : Nat) (up : List Nat) : MigrationFile := ⟨⟨maj, mino⟩, up, []⟩

/-- Some version is present in both collections with different up-file
content ("base file drift" on a shared version). -/
def sharedDrift (mf prevFiles : List MigrationFile) : Bool :=
  prevFiles.any (fun p =>
    mf.any (fun c => p.version = c.version ∧ p.upContent ≠ c.upContent))

/-- Number of adjacent plan pairs at which the main loop of `migrateFiles`
commits the open transaction before executing the second member: every pair
in per-file mode, pairs crossing a major version otherwise. -/
def adjacentCommits (txPerFile : Bool) : List Migration → Nat
  | a :: b :: rest =>
    (if txPerFile ∨ a.version.major ≠ b.version.major then 1 else 0) +
      adjacentCommits txPerFile (b :: rest)
  | _ => 0

/-- Accounting of the migrations durably committed when the plan fails:
`acc` are migrations already committed, `pend` the ones in the open
transaction, `prevV` the last executed version, and the counter is the
number of further successful executions before the failing one.  At each
step the open transaction is committed first when the grouping boundary is
crossed; the transaction open at the failure is discarded. -/
def commLoop (txPerFile : Bool) (acc pend : List Migration) :
    Version → List Migration → Nat → List Migration
  | _, [], _ => acc ++ pend
  | prevV, f :: _, 0 =>
    if txPerFile ∨ prevV.major ≠ f.version.major then acc ++ pend else acc
  | prevV, f :: rest, i + 1 =>
    if txPerFile ∨ prevV.major ≠ f.version.major then
      commLoop txPerFile (acc ++ pend) [f] f.version rest i
    else commLoop txPerFile acc (pend ++ [f]) f.version rest i

/-- The migrations that remain durably applied when executing the plan
fails at position `i` (positions after the last committed transaction
boundary at or before `i` are rolled back). -/
def committedOnFailure (txPerFile : Bool) (plan : List Migration) (i : Nat) :
    List Migration :=
  match plan, i with
  | [], _ => []
  | _ :: _, 0 => []
  | f :: rest, i + 1 => commLoop txPerFile [] [f] f.version rest i

/-! ### Theorems -/

theorem Version.compare_eq_zero_iff (v w : Version) : v.compare w = 0 ↔ v = w := by
  cases v with
  | mk a b =>
    cases w with
    | mk c d =>
      simp only [Version.compare, Version.mk.injEq]
      split_ifs with h1 h2
      · constructor
        · intro h; cases h
        · rintro ⟨rfl, rfl⟩; omega
      · constructor
        · intro h; cases h
        · rintro ⟨rfl, rfl⟩; omega
      · simp only [gt_iff_lt] at h1 h2
        constructor
        · intro _
          constructor <;> omega
        · intro _; rfl

theorem Version.compare_neg_iff (v w : Version) :
    v.compare w < 0 ↔ v.major < w.major ∨ (v.major = w.major ∧ v.minor < w.minor) := by
  cases v with
  | mk a b =>
    cases w with
    | mk c d =>
      simp only [Version.compare]
      split_ifs with h1 h2 <;> simp_all

theorem Version.compare_pos_iff (v w : Version) :
    0 < v.compare w ↔ w.major < v.major ∨ (w.major = v.major ∧ w.minor < v.minor) := by
  cases v with
  | mk a b =>
    cases w with
    | mk c d =>
      simp only [Version.compare]
      split_ifs with h1 h2 <;> simp_all <;> omega

theorem Version.compare_le_zero_iff (v w : Version) :
    v.compare w ≤ 0 ↔ v.major < w.major ∨ (v.major = w.major ∧ v.minor ≤ w.minor) := by
  cases v with
  | mk a b =>
    cases w with
    | mk c d =>
      simp only [Version.compare]
      split_ifs with h1 h2 <;> simp_all <;> omega

theorem sortAsc_perm (mf : List MigrationFile) : (sortAsc mf).Perm mf :=
  List.perm_insertionSort vle mf

theorem sortDesc_perm (mf : List MigrationFile) : (sortDesc mf).Perm mf :=
  List.perm_insertionSort vge mf

/-- C3. The claim as stated is false: the resolution functions sort their
receiver in place, so a collection that is not already in the target order
is reordered.  Concretely, `ToLastFrom` on the two-element collection held
in descending order leaves it ascending. -/
theorem c3_counterexample :
    (ToLastFrom [mkMF 0 2 [], mkMF 0 1 []] ⟨0, 0⟩).1 ≠ [mkMF 0 2 [], mkMF 0 1 []] := by
  decide

/-- C3 (amended): each resolution function returns a freshly built
`Migrations` sequence and does not add, remove or modify any element of its
input collection, but it may reorder the collection in place (it sorts it
ascending or descending as a side effect): after the call the collection is
a permutation of its previous contents. -/
theorem c3_resolution_preserves_elements
    (mf : List MigrationFile) (dst ver s e : Version) (n : Int) :
    ((DownTo mf dst).1.Perm mf) ∧
    ((ToFirstFrom mf ver).1.Perm mf) ∧
    ((ToLastFrom mf ver).1.Perm mf) ∧
    ((FromTo mf s e).1.Perm mf) ∧
    ((FromN mf ver n).1.Perm mf) := by
  refine ⟨sortDesc_perm mf, sortDesc_perm mf, sortAsc_perm mf, ?_, ?_⟩
  · by_cases h : s.compare e = 0
    · unfold FromTo
      rw [if_pos h]
    · unfold FromTo
      rw [if_neg h]
      dsimp only
      split_ifs <;> exact sortAsc_perm mf
  · unfold FromN
    split_ifs with h1 h2
    · exact List.Perm.refl mf
    · exact sortAsc_perm mf
    · exact sortDesc_perm mf

/-- C8. The code violates the claim (and the intent of its own
"reverse migrations if going down" step): going down from (0,3) to (0,1)
over the files (0,1)...(0,4), the loop meets (0,4) > start, returns early
and skips the reversal, so the down plan comes out in ascending order
[(0,2),(0,3)] instead of descending [(0,3),(0,2)]. -/
theorem c8_fromTo_down_order_bug :
    ((FromTo [mkMF 0 1 [], mkMF 0 2 [], mkMF 0 3 [], mkMF 0 4 []] ⟨0, 3⟩ ⟨0, 1⟩).2
      = [(mkMF 0 2 []).migration Direction.down, (mkMF 0 3 []).migration Direction.down]) ∧
    ((FromTo [mkMF 0 1 [], mkMF 0 2 [], mkMF 0 3 []] ⟨0, 3⟩ ⟨0, 1⟩).2
      = [(mkMF 0 3 []).migration Direction.down, (mkMF 0 2 []).migration Direction.down]) := by
  constructor <;> decide

/-- C10. `LastVersion` of an empty collection is (0,0), not an error, and
`Up` plans `ToLastFrom((0,0))`; when no available file carries the
pathological version (0,0) — every real migration starts at (0,1) — that
plan is every available migration, ascending, as up migrations. -/
theorem c10_empty_lastVersion_up_plans_all (files : List MigrationFile) :
    LastVersion [] = (⟨0, 0⟩ : Version) ∧
    upPlan [] files = (ToLastFrom files ⟨0, 0⟩).2 ∧
    ((∀ m ∈ files, m.version ≠ (⟨0, 0⟩ : Version)) →
      upPlan [] files = (sortAsc files).map (fun m => m.migration Direction.up)) := by
  refine ⟨rfl, rfl, fun h => ?_⟩
  unfold upPlan ToLastFrom
  simp only
  have hall : ∀ m ∈ sortAsc files, 0 < m.version.compare ⟨0, 0⟩ := by
    intro m hm
    have hmf : m ∈ files := (sortAsc_perm files).mem_iff.mp hm
    have hne := h m hmf
    rw [Version.compare_pos_iff]
    rcases Nat.eq_zero_or_pos m.version.major with hz | hp
    · rcases Nat.eq_zero_or_pos m.version.minor with hz2 | hp2
      · exfalso
        apply hne
        have hv : m.version = ⟨m.version.major, m.version.minor⟩ := rfl
        rw [hv, hz, hz2]
      · right
        exact ⟨hz.symm, hp2⟩
    · left
      exact hp
  have : (sortAsc files).filter (fun m => 0 < m.version.compare ⟨0, 0⟩) = sortAsc files := by
    apply List.filter_eq_self.mpr
    intro m hm
    simpa using hall m hm
  rw [LastVersion]
  simp only [List.getLast?_nil]
  exact congrArg _ this

/-- C10 witness: at the concrete two-file collection (0,1),(0,2) the
hypothesis holds and the Up plan covers both files ascending. -/
theorem c10_witness :
    (∀ m ∈ [mkMF 0 1 [], mkMF 0 2 []], m.version ≠ (⟨0, 0⟩ : Version)) ∧
    upPlan [] [mkMF 0 1 [], mkMF 0 2 []] =
      (sortAsc [mkMF 0 1 [], mkMF 0 2 []]).map (fun m => m.migration Direction.up) :=
  ⟨by decide, (c10_empty_lastVersion_up_plans_all [mkMF 0 1 [], mkMF 0 2 []]).2.2 (by decide)⟩

theorem missingVersionLoop_none_iff (v2 : Bool) (rest : List MigrationFile) :
    ∀ prev : Version,
      (missingVersionLoop v2 false (prev.inc false) rest = none) ↔
        (contiguousFrom v2 prev (rest.map (fun m => m.version)) = true) := by
  induction rest with
  | nil =>
    intro prev
    simp [missingVersionLoop, contiguousFrom]
  | cons m rest ih =>
    intro prev
    have hminor : prev.inc false = ⟨prev.major, prev.minor + 1⟩ := by
      simp [Version.inc]
    have hbump : (prev.inc false).inc true = ⟨prev.major + 1, 1⟩ := by
      simp [Version.inc]
    by_cases hm : m.version = prev.inc false
    · have hc : m.version.compare (prev.inc false) = 0 :=
        (Version.compare_eq_zero_iff _ _).mpr hm
      have hmv : m.version = ⟨prev.major, prev.minor + 1⟩ := hm.trans hminor
      rw [missingVersionLoop]
      rw [if_neg (by simp [hc])]
      rw [show ((prev.inc false).inc false) = m.version.inc false by rw [hm]]
      rw [ih m.version]
      simp only [List.map_cons, contiguousFrom]
      simp [hmv]
    · have hc : m.version.compare (prev.inc false) ≠ 0 := by
        intro h0
        exact hm ((Version.compare_eq_zero_iff _ _).mp h0)
      have hmv : m.version ≠ ⟨prev.major, prev.minor + 1⟩ := by
        rw [← hminor]; exact hm
      rw [missingVersionLoop]
      rw [if_pos (by simp [hc])]
      cases v2 with
      | false =>
        rw [if_neg (by simp)]
        simp only [List.map_cons, contiguousFrom]
        simp [hmv]
      | true =>
        rw [if_pos (by simp)]
        by_cases hm2 : m.version = (prev.inc false).inc true
        · have hc2 : m.version.compare ((prev.inc false).inc true) = 0 :=
            (Version.compare_eq_zero_iff _ _).mpr hm2
          have hmv2 : m.version = ⟨prev.major + 1, 1⟩ := hm2.trans hbump
          rw [if_neg (by simp [hc2])]
          rw [show ((prev.inc false).inc true).inc false = m.version.inc false by rw [hm2]]
          rw [ih m.version]
          simp only [List.map_cons, contiguousFrom]
          simp [hmv, hmv2]
        · have hc2 : m.version.compare ((prev.inc false).inc true) ≠ 0 := by
            intro h0
            exact hm2 ((Version.compare_eq_zero_iff _ _).mp h0)
          have hmv2 : m.version ≠ ⟨prev.major + 1, 1⟩ := by
            rw [← hbump]; exact hm2
          rw [if_pos (by simp [hc2])]
          simp only [List.map_cons, contiguousFrom]
          simp [hmv, hmv2]

/-- C9. The claim as stated is false: on [(0,1),(0,3),(1,1)] (versioned
mode) the first expected version that is not present is (0,2), but
`MissingVersion` bumps the expectation to the next major block and returns
(1,1) — a version that IS present in the collection — and not (0,2). -/
theorem c9_counterexample :
    MissingVersion true [mkMF 0 1 [], mkMF 0 3 [], mkMF 1 1 []] = some ⟨1, 1⟩ ∧
    (⟨1, 1⟩ : Version) ∈
      ([mkMF 0 1 [], mkMF 0 3 [], mkMF 1 1 []].map (fun m => m.version)) ∧
    MissingVersion true [mkMF 0 1 [], mkMF 0 3 [], mkMF 1 1 []] ≠ some ⟨0, 2⟩ := by
  refine ⟨by decide, by decide, by decide⟩

theorem missingVersion_none_iff_contiguous (v2 : Bool) (mf : List MigrationFile) :
    (MissingVersion v2 mf = none) ↔
      (contiguous v2 (mf.map (fun m => m.version)) = true) := by
  cases mf with
  | nil => simp [MissingVersion, missingVersionLoop, contiguous]
  | cons m rest =>
    rw [MissingVersion]
    by_cases hm : m.version = (⟨0, 1⟩ : Version)
    · have hc : m.version.compare ⟨0, 1⟩ = 0 := (Version.compare_eq_zero_iff _ _).mpr hm
      rw [missingVersionLoop]
      rw [if_neg (by simp [hc])]
      rw [show ((⟨0, 1⟩ : Version).inc false) = m.version.inc false by rw [hm]]
      rw [missingVersionLoop_none_iff v2 rest m.version]
      simp only [List.map_cons, contiguous]
      simp [hm]
    · have hc : m.version.compare ⟨0, 1⟩ ≠ 0 := by
        intro h0
        exact hm ((Version.compare_eq_zero_iff _ _).mp h0)
      rw [missingVersionLoop]
      rw [if_pos (by simp [hc])]
      rw [if_neg (by simp)]
      simp only [List.map_cons, contiguous]
      simp [hm]

/-- C9 (amended): `MissingVersion` returns none exactly on contiguous
collections (consecutive minors starting at 1 per major block, first
element (0,1), in V2 mode a new block may start after the first element);
on a non-contiguous collection it returns some version — the one the walk
expects at the first mismatch (the minor successor, or the bumped
next-major candidate), which may coincide with a version present later in
the collection. -/
theorem c9_missing_version_contiguity (v2 : Bool) (mf : List MigrationFile) :
    (MissingVersion v2 mf = none ↔
      contiguous v2 (mf.map (fun m => m.version)) = true) ∧
    (contiguous v2 (mf.map (fun m => m.version)) = false →
      (MissingVersion v2 mf).isSome) := by
  constructor
  · exact missingVersion_none_iff_contiguous v2 mf
  · intro h
    cases hmv : MissingVersion v2 mf with
    | none =>
      exfalso
      have := (missingVersion_none_iff_contiguous v2 mf).mp hmv
      rw [this] at h
      cases h
    | some v => rfl

/-- C9 witness: the collection [(0,1),(0,3)] is not contiguous and
`MissingVersion` indeed returns a version on it. -/
theorem c9_witness :
    (contiguous true ([mkMF 0 1 [], mkMF 0 3 []].map (fun m => m.version)) = false) ∧
    (MissingVersion true [mkMF 0 1 [], mkMF 0 3 []]).isSome :=
  ⟨by decide, (c9_missing_version_contiguity true [mkMF 0 1 [], mkMF 0 3 []]).2 (by decide)⟩

theorem validateLoop_none_iff (l : List (MigrationFile × MigrationFile)) :
    validateLoop l = none ↔
      ∀ pr ∈ l, pr.1.version = pr.2.version ∧ pr.1.upContent = pr.2.upContent := by
  induction l with
  | nil => simp [validateLoop]
  | cons hd rest ih =>
    obtain ⟨prev, file⟩ := hd
    rw [validateLoop]
    by_cases hv : prev.version.compare file.version = 0
    · have hveq := (Version.compare_eq_zero_iff _ _).mp hv
      rw [if_neg (by simp [hv])]
      by_cases hcont : prev.upContent = file.upContent
      · rw [if_neg (by simp [hcont])]
        rw [ih]
        constructor
        · intro h pr hpr
          rcases List.mem_cons.mp hpr with rfl | hmem
          · exact ⟨hveq, hcont⟩
          · exact h pr hmem
        · intro h pr hpr
          exact h pr (List.mem_cons_of_mem _ hpr)
      · rw [if_pos (by simp [hcont])]
        constructor
        · intro h; cases h
        · intro h
          exact absurd (h ⟨prev, file⟩ (List.mem_cons_self _ _)).2 hcont
    · rw [if_pos (by simp [hv])]
      constructor
      · intro h; cases h
      · intro h
        exact absurd
          ((Version.compare_eq_zero_iff _ _).mpr (h ⟨prev, file⟩ (List.mem_cons_self _ _)).1) hv

theorem contiguousFrom_chain (v2 : Bool) (vs : List Version) :
    ∀ prev, contiguousFrom v2 prev vs = true → List.Chain versLt prev vs := by
  induction vs with
  | nil => intro prev _; exact List.Chain.nil
  | cons v rest ih =>
    intro prev h
    simp only [contiguousFrom, decide_eq_true_eq] at h
    refine List.Chain.cons ?_ (ih v h.2)
    rcases h.1 with h1 | h1
    · rw [h1]
      unfold versLt
      right
      exact ⟨rfl, Nat.lt_succ_self _⟩
    · rw [h1.2]
      unfold versLt
      left
      exact Nat.lt_succ_self _

theorem contiguous_nodup (v2 : Bool) (vs : List Version)
    (h : contiguous v2 vs = true) : vs.Nodup := by
  cases vs with
  | nil => exact List.nodup_nil
  | cons v rest =>
    simp only [contiguous, decide_eq_true_eq] at h
    have hchain : List.Chain versLt v rest := contiguousFrom_chain v2 rest v h.2
    have hpw : List.Pairwise versLt (v :: rest) := List.chain_iff_pairwise.mp hchain
    refine hpw.imp ?_
    intro a b hab he
    rw [he] at hab
    unfold versLt at hab
    omega

theorem validateBaseFiles_none_drift (v2 : Bool) (sorted prevFiles : List MigrationFile)
    (hval : ValidateBaseFiles v2 sorted prevFiles = none)
    (p c : MigrationFile) (hpmem : p ∈ prevFiles) (hcmem : c ∈ sorted)
    (hv : p.version = c.version) : p.upContent = c.upContent := by
  unfold ValidateBaseFiles at hval
  by_cases hl : sorted.length < prevFiles.length
  · rw [if_pos hl] at hval
    cases hval
  · rw [if_neg hl] at hval
    cases hmv : MissingVersion v2 sorted with
    | some w =>
      rw [hmv] at hval
      cases hval
    | none =>
      rw [hmv] at hval
      have hloop := (validateLoop_none_iff _).mp hval
      have hlen2 : prevFiles.length ≤ sorted.length := Nat.le_of_not_lt hl
      obtain ⟨i, hi, hp⟩ := List.mem_iff_getElem.mp hpmem
      obtain ⟨j, hj, hc⟩ := List.mem_iff_getElem.mp hcmem
      have hizip : i < (prevFiles.zip sorted).length := by
        rw [List.length_zip]
        omega
      have his : i < sorted.length := by omega
      have hzipmem : (prevFiles[i], sorted[i]) ∈ prevFiles.zip sorted := by
        have hg : (prevFiles.zip sorted)[i] = (prevFiles[i], sorted[i]) :=
          List.getElem_zip
        rw [← hg]
        exact List.getElem_mem hizip
      have hfact := hloop _ hzipmem
      have hnd : (sorted.map (fun m => m.version)).Nodup :=
        contiguous_nodup v2 _ ((missingVersion_none_iff_contiguous v2 sorted).mp hmv)
      have hij : i = j := by
        have hmi : i < (sorted.map (fun m => m.version)).length := by
          rw [List.length_map]; omega
        have hmj : j < (sorted.map (fun m => m.version)).length := by
          rw [List.length_map]; omega
        have hveq : (sorted.map (fun m => m.version))[i]
            = (sorted.map (fun m => m.version))[j] := by
          rw [List.getElem_map, List.getElem_map, hc]
          rw [← hfact.1, hp, hv]
        exact (hnd.getElem_inj_iff).mp hveq
      have hceq : c = sorted[i] := by
        rw [← hc]
        subst hij
        rfl
      rw [← hp, hceq]
      exact hfact.2

/-- C6. The claim as stated is false: with shared-version content drift,
`Between(prevFiles, force=false)` need not return the content-mismatch
error — an earlier base-file check can fire first.  Concretely, for current
files (0,1),(0,3) (a gap) and previous file (0,1) with different up
content, it returns the missing-version error for (0,2), not a
content-mismatch error. -/
theorem c6_counterexample :
    sharedDrift [mkMF 0 1 [1], mkMF 0 3 [2]] [mkMF 0 1 [9]] = true ∧
    (LastVersion [mkMF 0 1 [9]]).compare
      (LastVersion (sortAsc [mkMF 0 1 [1], mkMF 0 3 [2]])) ≤ 0 ∧
    (Between false [mkMF 0 1 [1], mkMF 0 3 [2]] [mkMF 0 1 [9]] false).err
      = some (MErr.missingVersion ⟨0, 2⟩) ∧
    ((Between false [mkMF 0 1 [1], mkMF 0 3 [2]] [mkMF 0 1 [9]] false).err.map
      MErr.isContentMismatch) = some false := by
  refine ⟨by decide, by decide, by decide, by decide⟩

/-- C6 (amended): for a non-empty current set `mf` with
`prevFiles.LastVersion ≤ mf.LastVersion`, `Between(prevFiles, force=false)`
fails with some error whenever a Version present in both sets has
differing up-file content (the error is the content-mismatch one only when
the earlier checks — size, contiguity, positional version equality — pass);
`Between(prevFiles, force=true)` succeeds regardless of content drift with
the plan `ToLastFrom(curVersion)`; and when `prevFiles.LastVersion` is
greater, the plan is `prevFiles.DownTo(dstVersion)` built from the
previously recorded files. -/
theorem c6_between_reconciliation (v2 : Bool) (mf prevFiles : List MigrationFile) :
    (mf ≠ [] →
      (LastVersion prevFiles).compare (LastVersion (sortAsc mf)) ≤ 0 →
      sharedDrift mf prevFiles = true →
      (Between v2 mf prevFiles false).err.isSome) ∧
    (mf ≠ [] →
      (LastVersion prevFiles).compare (LastVersion (sortAsc mf)) ≤ 0 →
      (Between v2 mf prevFiles true).err = none ∧
      (Between v2 mf prevFiles true).migrations =
        (ToLastFrom (sortAsc mf) (LastVersion prevFiles)).2) ∧
    (mf ≠ [] →
      ¬((LastVersion prevFiles).compare (LastVersion (sortAsc mf)) ≤ 0) →
      ∀ force,
        (Between v2 mf prevFiles force).err = none ∧
        (Between v2 mf prevFiles force).migrations =
          (DownTo prevFiles (LastVersion (sortAsc mf))).2) := by
  refine ⟨?_, ?_, ?_⟩
  · intro hne hle hdrift
    rw [Between, if_neg hne]
    dsimp only
    rw [if_pos hle, if_pos rfl]
    cases hval : ValidateBaseFiles v2 (sortAsc mf) prevFiles with
    | some e => rfl
    | none =>
      exfalso
      simp only [sharedDrift, List.any_eq_true, decide_eq_true_eq] at hdrift
      obtain ⟨p, hpmem, c, hcmem, hv, hcont⟩ := hdrift
      have hcS : c ∈ sortAsc mf := (sortAsc_perm mf).mem_iff.mpr hcmem
      exact hcont (validateBaseFiles_none_drift v2 (sortAsc mf) prevFiles hval p c hpmem hcS hv)
  · intro hne hle
    rw [Between, if_neg hne]
    dsimp only
    rw [if_pos hle, if_neg (by simp)]
    exact ⟨rfl, rfl⟩
  · intro hne hgt force
    rw [Between, if_neg hne]
    dsimp only
    rw [if_neg hgt]
    exact ⟨rfl, rfl⟩

/-- C6 witness: with a single shared version (0,1) of drifting content the
validation error fires (conjunct 1); with force the Up plan is produced
(conjunct 2); with previous files ahead the plan goes down from the
recorded files (conjunct 3). -/
theorem c6_witness :
    (Between false [mkMF 0 1 [1]] [mkMF 0 1 [9]] false).err.isSome ∧
    ((Between false [mkMF 0 1 [1]] [mkMF 0 1 [9]] true).err = none ∧
      (Between false [mkMF 0 1 [1]] [mkMF 0 1 [9]] true).migrations =
        (ToLastFrom (sortAsc [mkMF 0 1 [1]]) (LastVersion [mkMF 0 1 [9]])).2) ∧
    ((Between false [mkMF 0 1 [1]] [mkMF 0 1 [1], mkMF 0 2 [2]] false).err = none ∧
      (Between false [mkMF 0 1 [1]] [mkMF 0 1 [1], mkMF 0 2 [2]] false).migrations =
        (DownTo [mkMF 0 1 [1], mkMF 0 2 [2]]
          (LastVersion (sortAsc [mkMF 0 1 [1]]))).2) :=
  ⟨(c6_between_reconciliation false [mkMF 0 1 [1]] [mkMF 0 1 [9]]).1
      (by decide) (by decide) (by decide),
   (c6_between_reconciliation false [mkMF 0 1 [1]] [mkMF 0 1 [9]]).2.1
      (by decide) (by decide),
   (c6_between_reconciliation false [mkMF 0 1 [1]] [mkMF 0 1 [1], mkMF 0 2 [2]]).2.2
      (by decide) (by decide) false⟩

theorem replay_updates (l : List Version) :
    ∀ db : DB, replay db (l.map Ev.updateFile) =
      { db with pendStored := db.pendStored ++ l } := by
  induction l with
  | nil => intro db; simp [replay]
  | cons v rest ih =>
    intro db
    rw [List.map_cons]
    show replay (stepEv db (Ev.updateFile v)) (rest.map Ev.updateFile) = _
    rw [ih]
    simp [stepEv]

theorem replay_updateFilesEvs (ap : List Migration) (st : List Version)
    (files : List MigrationFile) (stopAt : Version) :
    replay (cleanDB ap st) (updateFilesEvs files stopAt) =
      cleanDB ap (st ++ updatedVersions files stopAt) := by
  rw [updateFilesEvs, replay]
  simp only [List.foldl_cons, List.foldl_append]
  have h1 : stepEv (cleanDB ap st) Ev.begin = ⟨ap, st, [], [], true⟩ := rfl
  rw [h1]
  have h2 : List.foldl stepEv (⟨ap, st, [], [], true⟩ : DB)
      ((updatedVersions files stopAt).map Ev.updateFile)
      = ⟨ap, st, [], updatedVersions files stopAt, true⟩ := by
    have := replay_updates (updatedVersions files stopAt) ⟨ap, st, [], [], true⟩
    rw [replay] at this
    simpa using this
  rw [h2]
  simp [stepEv, cleanDB]

theorem filter_isExec_updateFilesEvs (files : List MigrationFile) (stopAt : Version) :
    (updateFilesEvs files stopAt).filter (fun e => e.isExec) = [] := by
  have h1 : ((updatedVersions files stopAt).map Ev.updateFile).filter (fun e => e.isExec)
      = [] := by
    induction updatedVersions files stopAt with
    | nil => rfl
    | cons v rest ih => simp [Ev.isExec, ih]
  simp [updateFilesEvs, List.filter_append, Ev.isExec, h1]

theorem migrateFiles_empty_plan (txPerFile : Bool) (execOk : Nat → Bool)
    (prevFiles files : List MigrationFile) :
    (migrateFiles txPerFile execOk prevFiles files []).2 = true ∧
    ((migrateFiles txPerFile execOk prevFiles files []).1 = [] ∨
      (migrateFiles txPerFile execOk prevFiles files []).1 =
        updateFilesEvs files ((LastVersion files).inc true)) := by
  rw [migrateFiles]
  cases hs : sortAsc prevFiles with
  | nil => exact ⟨rfl, Or.inl rfl⟩
  | cons first rest =>
    dsimp only
    by_cases hc : first.upContent = []
    · rw [if_pos hc]
      exact ⟨rfl, Or.inr rfl⟩
    · rw [if_neg hc]
      exact ⟨rfl, Or.inl rfl⟩

/-- C2. The claim as stated is false: `Migrate(0)` is not always a no-op on
driver-persisted state.  With the recorded previous file for (0,1) carrying
no stored content (a database from before content storage) and force set,
`Migrate(0)` reaches `migrateFiles` with the empty plan, which backfills
the stored file contents: it begins a transaction, rewrites the stored
content of version (0,1) and commits — a committed change to
driver-persisted state. -/
theorem c2_counterexample :
    (MigrateRel false false true (fun _ => true) [mkMF 0 1 []] [mkMF 0 1 [5]] 0).1
      = [Ev.begin, Ev.updateFile ⟨0, 1⟩, Ev.commit] ∧
    (replay (cleanDB [] [])
        (MigrateRel false false true (fun _ => true) [mkMF 0 1 []] [mkMF 0 1 [5]] 0).1).stored
      = [⟨0, 1⟩] ∧
    (MigrateRel false false true (fun _ => true) [mkMF 0 1 []] [mkMF 0 1 [5]] 0).2 = none := by
  refine ⟨by decide, by decide, by decide⟩

/-- C2 (amended): `Migrate(0)` computes an empty plan: it executes no
migration script and leaves the applied-migration state unchanged, and with
`Force` set it yields no error; but it is not a complete no-op on
driver-persisted state — when driver-recorded previous files exist whose
first up-file has no stored content, the stored script contents are
rewritten inside one committed transaction (and with validation enabled the
`init` base-file validation may also return an error before the plan is
considered). -/
theorem c2_migrate_zero (v2 txPerFile force : Bool) (execOk : Nat → Bool)
    (prevFiles files : List MigrationFile) (ap : List Migration) (st : List Version) :
    ((MigrateRel v2 txPerFile force execOk prevFiles files 0).1.filter
        (fun e => e.isExec) = []) ∧
    ((replay (cleanDB ap st)
        (MigrateRel v2 txPerFile force execOk prevFiles files 0).1).applied = ap) ∧
    ((MigrateRel v2 txPerFile true execOk prevFiles files 0).2 = none) := by
  have main : ∀ (fr : Bool),
      ((MigrateRel v2 txPerFile fr execOk prevFiles files 0).1.filter
          (fun e => e.isExec) = []) ∧
      ((replay (cleanDB ap st)
          (MigrateRel v2 txPerFile fr execOk prevFiles files 0).1).applied = ap) ∧
      ((MigrateRel v2 txPerFile fr execOk prevFiles files 0).2 = none ∨ fr = false) := by
    intro fr
    rw [MigrateRel]
    dsimp only
    cases hval : (if fr then none
        else ValidateBaseFiles v2 files (prevFiles.take (min prevFiles.length files.length))) with
    | some e =>
      simp only [hval]
      refine ⟨rfl, rfl, ?_⟩
      right
      cases fr with
      | false => rfl
      | true => rw [if_pos rfl] at hval; cases hval
    | none =>
      simp only [hval]
      rw [if_pos trivial]
      obtain ⟨hok, htr⟩ :=
        migrateFiles_empty_plan txPerFile execOk prevFiles (FromN files (LastVersion prevFiles) 0).1
      rcases htr with h | h
      · rw [h, hok]
        exact ⟨rfl, rfl, Or.inl rfl⟩
      · rw [h, hok]
        refine ⟨filter_isExec_updateFilesEvs _ _, ?_, Or.inl rfl⟩
        rw [replay_updateFilesEvs]
        rfl

  refine ⟨(main force).1, (main force).2.1, ?_⟩
  rcases (main true).2.2 with h | h
  · exact h
  · cases h

theorem count_commit_updateFilesEvs (files : List MigrationFile) (stopAt : Version) :
    (updateFilesEvs files stopAt).count Ev.commit = 1 := by
  have h1 : ((updatedVersions files stopAt).map Ev.updateFile).count Ev.commit = 0 := by
    induction updatedVersions files stopAt with
    | nil => rfl
    | cons v rest ih => simp [List.count_cons, ih]
  simp [updateFilesEvs, List.count_append, List.count_cons, h1]

theorem migrateLoop_allOk (txPerFile : Bool) (rest : List Migration) :
    ∀ (f : Migration) (idx : Nat),
      ((migrateLoop txPerFile (fun _ => true) true f.version idx rest).2 = true) ∧
      ((migrateLoop txPerFile (fun _ => true) true f.version idx rest).1.count Ev.commit
        = adjacentCommits txPerFile (f :: rest) + 1) := by
  induction rest with
  | nil =>
    intro f idx
    refine ⟨rfl, ?_⟩
    simp [migrateLoop, adjacentCommits]
  | cons g rs ih =>
    intro f idx
    rw [migrateLoop]
    by_cases hcut : (txPerFile = true ∨ ¬f.version.major = g.version.major)
    · rw [if_pos ⟨rfl, hcut⟩]
      rw [if_pos rfl]
      refine ⟨(ih g (idx + 1)).1, ?_⟩
      have hr := (ih g (idx + 1)).2
      rw [adjacentCommits, if_pos hcut]
      simp only [List.count_cons]
      rw [hr]
      simp [Ev.commit.sizeOf_spec]
      omega
    · rw [if_neg (by simp [hcut])]
      rw [if_pos rfl, if_pos rfl]
      refine ⟨(ih g (idx + 1)).1, ?_⟩
      have hr := (ih g (idx + 1)).2
      rw [adjacentCommits, if_neg hcut]
      simp only [List.count_cons]
      rw [hr]
      simp

/-- C5. The claim as stated is false: its concrete consequence — a plan of
4 migrations spanning 2 major versions commits exactly 2 transactions in
per-major-version mode (4 in per-file mode) — fails for Up plans, because
`migrateFiles` first runs the stored-content synchronization preamble,
which begins and commits one additional transaction: the trace carries 3
(resp. 5) commits. -/
theorem c5_counterexample :
    ((migrateFiles false (fun _ => true) [] []
        [(mkMF 0 1 []).migration Direction.up, (mkMF 0 2 []).migration Direction.up,
         (mkMF 1 1 []).migration Direction.up, (mkMF 1 2 []).migration Direction.up]).1.count
      Ev.commit = 3) ∧
    ((migrateFiles true (fun _ => true) [] []
        [(mkMF 0 1 []).migration Direction.up, (mkMF 0 2 []).migration Direction.up,
         (mkMF 1 1 []).migration Direction.up, (mkMF 1 2 []).migration Direction.up]).1.count
      Ev.commit = 5) := by
  refine ⟨by decide, by decide⟩

/-- C5 (amended): in a successful run of a non-empty plan, the main loop
commits the open transaction before executing migration i (i > 0) exactly
when TxPerFile is set or migration i's major version differs from migration
i-1's (`adjacentCommits` counts those boundaries), and one final commit
follows the last migration; in addition, when the plan starts with an Up
migration one extra transaction (the stored-content synchronization
preamble) is begun and committed before the plan.  Hence the 4-migration
2-major example commits 2 (per-major) resp. 4 (per-file) transactions in
the main loop, plus 1 preamble commit when the plan goes up. -/
theorem c5_commit_count (txPerFile : Bool) (prevFiles files : List MigrationFile)
    (first : Migration) (rest : List Migration) :
    ((migrateFiles txPerFile (fun _ => true) prevFiles files (first :: rest)).2 = true) ∧
    ((migrateFiles txPerFile (fun _ => true) prevFiles files (first :: rest)).1.count
        Ev.commit
      = adjacentCommits txPerFile (first :: rest) + 1
        + (if first.upDir then 1 else 0)) := by
  rw [migrateFiles]
  dsimp only
  have hloop0 : migrateLoop txPerFile (fun _ => true) false ⟨0, 0⟩ 0 (first :: rest)
      = (Ev.begin :: Ev.execMig first ::
          (migrateLoop txPerFile (fun _ => true) true first.version 1 rest).1,
         (migrateLoop txPerFile (fun _ => true) true first.version 1 rest).2) := by
    rw [migrateLoop]
    rw [if_neg (by simp)]
    rw [if_neg (by simp)]
    rw [if_pos rfl]
  rw [hloop0]
  obtain ⟨hok, hcount⟩ := migrateLoop_allOk txPerFile rest first 1
  refine ⟨hok, ?_⟩
  rw [List.count_append]
  rw [show (Ev.begin :: Ev.execMig first ::
      (migrateLoop txPerFile (fun _ => true) true first.version 1 rest).1).count Ev.commit
      = (migrateLoop txPerFile (fun _ => true) true first.version 1 rest).1.count Ev.commit by
    simp [List.count_cons]]
  rw [hcount]
  by_cases hup : first.upDir = true
  · rw [if_pos hup, if_pos hup, count_commit_updateFilesEvs]
    omega
  · rw [if_neg hup, if_neg hup]
    simp

theorem getLast?_cons_of_getLast? {α : Type} (a : α) (l : List α) (x : α)
    (h : l.getLast? = some x) : (a :: l).getLast? = some x := by
  cases l with
  | nil => cases h
  | cons y ys =>
    rw [List.getLast?_cons_cons]
    exact h

theorem commLoop_acc (txPerFile : Bool) (rest : List Migration) :
    ∀ (i : Nat) (acc pend : List Migration) (v : Version),
      commLoop txPerFile acc pend v rest i = acc ++ commLoop txPerFile [] pend v rest i := by
  induction rest with
  | nil =>
    intro i acc pend v
    rw [commLoop, commLoop]
    simp
  | cons g rs ih =>
    intro i acc pend v
    cases i with
    | zero =>
      rw [commLoop, commLoop]
      by_cases hcut : (txPerFile = true ∨ ¬v.major = g.version.major)
      · rw [if_pos hcut, if_pos hcut]
        simp
      · rw [if_neg hcut, if_neg hcut]
        simp
    | succ i =>
      rw [commLoop, commLoop]
      by_cases hcut : (txPerFile = true ∨ ¬v.major = g.version.major)
      · rw [if_pos hcut, if_pos hcut]
        rw [ih i (acc ++ pend) [g] g.version, ih i ([] ++ pend) [g] g.version]
        simp
      · rw [if_neg hcut, if_neg hcut]
        rw [ih i acc (pend ++ [g]) g.version, ih i [] (pend ++ [g]) g.version]

theorem commLoop_isPrefix (txPerFile : Bool) (rest : List Migration) :
    ∀ (i : Nat) (acc pend : List Migration) (v : Version),
      (acc <+: commLoop txPerFile acc pend v rest i) ∧
      (commLoop txPerFile acc pend v rest i <+: acc ++ pend ++ rest.take i) := by
  induction rest with
  | nil =>
    intro i acc pend v
    rw [commLoop]
    exact ⟨List.prefix_append acc pend, by simp⟩
  | cons g rs ih =>
    intro i acc pend v
    cases i with
    | zero =>
      rw [commLoop]
      by_cases hcut : (txPerFile = true ∨ ¬v.major = g.version.major)
      · rw [if_pos hcut]
        refine ⟨List.prefix_append acc pend, ?_⟩
        rw [List.take_zero, List.append_nil]
      · rw [if_neg hcut]
        refine ⟨List.prefix_rfl, ?_⟩
        rw [List.take_zero, List.append_nil]
        exact List.prefix_append acc pend
    | succ i =>
      rw [commLoop]
      by_cases hcut : (txPerFile = true ∨ ¬v.major = g.version.major)
      · rw [if_pos hcut]
        obtain ⟨h1, h2⟩ := ih i (acc ++ pend) [g] g.version
        refine ⟨(List.prefix_append acc pend).trans h1, ?_⟩
        refine h2.trans ?_
        rw [List.take_succ_cons]
        simp
      · rw [if_neg hcut]
        obtain ⟨h1, h2⟩ := ih i acc (pend ++ [g]) g.version
        refine ⟨h1, ?_⟩
        refine h2.trans ?_
        rw [List.take_succ_cons]
        simp

theorem committedOnFailure_isPrefix (txPerFile : Bool) (plan : List Migration) (i : Nat) :
    committedOnFailure txPerFile plan i <+: plan.take i := by
  match plan, i with
  | [], _ =>
    rw [committedOnFailure]
    exact List.nil_prefix
  | f :: rest, 0 =>
    rw [committedOnFailure]
    exact List.nil_prefix
  | f :: rest, i + 1 =>
    rw [committedOnFailure]
    have h := (commLoop_isPrefix txPerFile rest i [] [f] f.version).2
    refine h.trans ?_
    rw [List.take_succ_cons]
    simp

theorem migrateLoop_fail (txPerFile : Bool) (execOk : Nat → Bool) (rest : List Migration) :
    ∀ (i idx : Nat) (prevV : Version),
      i < rest.length →
      execOk (idx + i) = false →
      (∀ j, j < i → execOk (idx + j) = true) →
      ((migrateLoop txPerFile execOk true prevV idx rest).2 = false) ∧
      ((migrateLoop txPerFile execOk true prevV idx rest).1.filter (fun e => e.isExec)
        = (rest.take (i + 1)).map Ev.execMig) ∧
      ((migrateLoop txPerFile execOk true prevV idx rest).1.getLast? = some Ev.rollback) := by
  induction rest with
  | nil =>
    intro i idx prevV hi _ _
    exact absurd hi (by simp)
  | cons g rs ih =>
    intro i idx prevV hi hfail hpre
    rw [migrateLoop]
    by_cases hcut : (txPerFile = true ∨ ¬prevV.major = g.version.major)
    · rw [if_pos ⟨rfl, hcut⟩]
      cases i with
      | zero =>
        rw [if_neg (by simp_all)]
        refine ⟨rfl, ?_, rfl⟩
        simp [Ev.isExec]
      | succ i =>
        rw [if_pos (by simpa using hpre 0 (Nat.succ_pos i))]
        have hfail1 : execOk (idx + 1 + i) = false := by
          rw [show idx + 1 + i = idx + (i + 1) from by omega]
          exact hfail
        have hpre1 : ∀ j, j < i → execOk (idx + 1 + j) = true := by
          intro j hj
          rw [show idx + 1 + j = idx + (j + 1) from by omega]
          exact hpre (j + 1) (by omega)
        obtain ⟨h1, h2, h3⟩ := ih i (idx + 1) g.version (by simpa using hi) hfail1 hpre1
        refine ⟨h1, ?_, ?_⟩
        · simp only [List.filter_cons, List.take_succ_cons, List.map_cons, Ev.isExec]
          simpa [Ev.isExec] using h2
        · exact getLast?_cons_of_getLast? _ _ _
            (getLast?_cons_of_getLast? _ _ _ (getLast?_cons_of_getLast? _ _ _ h3))
    · rw [if_neg (by simp [hcut]), if_pos rfl]
      cases i with
      | zero =>
        rw [if_neg (by simp_all)]
        refine ⟨rfl, ?_, rfl⟩
        simp [Ev.isExec]
      | succ i =>
        rw [if_pos (by simpa using hpre 0 (Nat.succ_pos i))]
        have hfail1 : execOk (idx + 1 + i) = false := by
          rw [show idx + 1 + i = idx + (i + 1) from by omega]
          exact hfail
        have hpre1 : ∀ j, j < i → execOk (idx + 1 + j) = true := by
          intro j hj
          rw [show idx + 1 + j = idx + (j + 1) from by omega]
          exact hpre (j + 1) (by omega)
        obtain ⟨h1, h2, h3⟩ := ih i (idx + 1) g.version (by simpa using hi) hfail1 hpre1
        refine ⟨h1, ?_, ?_⟩
        · simp only [List.filter_cons, List.take_succ_cons, List.map_cons, Ev.isExec]
          simpa [Ev.isExec] using h2
        · exact getLast?_cons_of_getLast? _ _ _ h3

theorem replay_append (db : DB) (l1 l2 : List Ev) :
    replay db (l1 ++ l2) = replay (replay db l1) l2 := by
  simp [replay, List.foldl_append]

theorem migrateLoop_fail_replay (txPerFile : Bool) (execOk : Nat → Bool)
    (rest : List Migration) :
    ∀ (i idx : Nat) (prevV : Version) (ap : List Migration) (st : List Version)
      (pend : List Migration),
      i < rest.length →
      execOk (idx + i) = false →
      (∀ j, j < i → execOk (idx + j) = true) →
      replay ⟨ap, st, pend, [], true⟩ (migrateLoop txPerFile execOk true prevV idx rest).1
        = cleanDB (ap ++ commLoop txPerFile [] pend prevV rest i) st := by
  induction rest with
  | nil =>
    intro i idx prevV ap st pend hi _ _
    exact absurd hi (by simp)
  | cons g rs ih =>
    intro i idx prevV ap st pend hi hfail hpre
    rw [migrateLoop]
    by_cases hcut : (txPerFile = true ∨ ¬prevV.major = g.version.major)
    · rw [if_pos ⟨rfl, hcut⟩]
      cases i with
      | zero =>
        rw [if_neg (by simp_all)]
        rw [commLoop, if_pos hcut]
        simp [replay, stepEv, cleanDB]
      | succ i =>
        rw [if_pos (by simpa using hpre 0 (Nat.succ_pos i))]
        have hstep : replay (⟨ap, st, pend, [], true⟩ : DB)
            (Ev.commit :: Ev.begin :: Ev.execMig g ::
              (migrateLoop txPerFile execOk true g.version (idx + 1) rs).1)
            = replay (⟨ap ++ pend, st, [g], [], true⟩ : DB)
                (migrateLoop txPerFile execOk true g.version (idx + 1) rs).1 := by
          show replay (stepEv (stepEv (stepEv _ _) _) _) _ = _
          simp [stepEv]
        rw [hstep]
        have hfail1 : execOk (idx + 1 + i) = false := by
          rw [show idx + 1 + i = idx + (i + 1) from by omega]
          exact hfail
        have hpre1 : ∀ j, j < i → execOk (idx + 1 + j) = true := by
          intro j hj
          rw [show idx + 1 + j = idx + (j + 1) from by omega]
          exact hpre (j + 1) (by omega)
        rw [ih i (idx + 1) g.version (ap ++ pend) st [g] (by simpa using hi) hfail1 hpre1]
        rw [commLoop, if_pos hcut]
        rw [commLoop_acc txPerFile rs i ([] ++ pend) [g] g.version]
        simp [cleanDB]
    · rw [if_neg (by simp [hcut]), if_pos rfl]
      cases i with
      | zero =>
        rw [if_neg (by simp_all)]
        rw [commLoop, if_neg hcut]
        simp [replay, stepEv, cleanDB]
      | succ i =>
        rw [if_pos (by simpa using hpre 0 (Nat.succ_pos i))]
        have hstep : replay (⟨ap, st, pend, [], true⟩ : DB)
            (Ev.execMig g ::
              (migrateLoop txPerFile execOk true g.version (idx + 1) rs).1)
            = replay (⟨ap, st, pend ++ [g], [], true⟩ : DB)
                (migrateLoop txPerFile execOk true g.version (idx + 1) rs).1 := by
          show replay (stepEv _ _) _ = _
          simp [stepEv]
        rw [hstep]
        have hfail1 : execOk (idx + 1 + i) = false := by
          rw [show idx + 1 + i = idx + (i + 1) from by omega]
          exact hfail
        have hpre1 : ∀ j, j < i → execOk (idx + 1 + j) = true := by
          intro j hj
          rw [show idx + 1 + j = idx + (j + 1) from by omega]
          exact hpre (j + 1) (by omega)
        rw [ih i (idx + 1) g.version ap st (pend ++ [g]) (by simpa using hi) hfail1 hpre1]
        rw [commLoop, if_neg hcut]

/-- C4. If executing the script of the i-th migration of a plan fails (the
oracle fails first at position i), `migrateFiles` reports failure, the last
driver event is the rollback of the open transaction, no migration after
position i is executed (the executed scripts are exactly positions 0..i),
and replaying the trace against any clean database state leaves exactly the
previously applied migrations plus the plan's migrations committed before
the failure — a prefix of the plan strictly before position i (the
transactions committed earlier in the plan are not undone; the failing
transaction's contents are discarded and no transaction is left open). -/
theorem c4_failure_rollback (txPerFile : Bool) (execOk : Nat → Bool)
    (prevFiles files : List MigrationFile) (plan : List Migration) (i : Nat)
    (ap : List Migration) (st : List Version)
    (hi : i < plan.length) (hfail : execOk i = false)
    (hpre : ∀ j, j < i → execOk j = true) :
    ((migrateFiles txPerFile execOk prevFiles files plan).2 = false) ∧
    ((migrateFiles txPerFile execOk prevFiles files plan).1.filter (fun e => e.isExec)
      = (plan.take (i + 1)).map Ev.execMig) ∧
    ((migrateFiles txPerFile execOk prevFiles files plan).1.getLast? = some Ev.rollback) ∧
    ((replay (cleanDB ap st) (migrateFiles txPerFile execOk prevFiles files plan).1).applied
      = ap ++ committedOnFailure txPerFile plan i) ∧
    (committedOnFailure txPerFile plan i <+: plan.take i) ∧
    ((replay (cleanDB ap st) (migrateFiles txPerFile execOk prevFiles files plan).1).inTx
      = false) ∧
    ((replay (cleanDB ap st)
        (migrateFiles txPerFile execOk prevFiles files plan).1).pendApplied = []) := by
  cases plan with
  | nil => exact absurd hi (by simp)
  | cons f rest =>
    rw [migrateFiles]
    dsimp only
    obtain ⟨st', hst'⟩ : ∃ st',
        replay (cleanDB ap st)
          (if f.upDir = true then updateFilesEvs files f.version else [])
          = cleanDB ap st' := by
      by_cases hup : f.upDir = true
      · rw [if_pos hup]
        exact ⟨st ++ updatedVersions files f.version, replay_updateFilesEvs ap st files f.version⟩
      · rw [if_neg hup]
        exact ⟨st, rfl⟩
    have hpref : (if f.upDir = true then updateFilesEvs files f.version else []).filter
        (fun e => e.isExec) = [] := by
      by_cases hup : f.upDir = true
      · rw [if_pos hup]
        exact filter_isExec_updateFilesEvs files f.version
      · rw [if_neg hup]
        rfl
    have hloop0 : migrateLoop txPerFile execOk false ⟨0, 0⟩ 0 (f :: rest)
        = if execOk 0 then
            (Ev.begin :: Ev.execMig f ::
              (migrateLoop txPerFile execOk true f.version 1 rest).1,
             (migrateLoop txPerFile execOk true f.version 1 rest).2)
          else (Ev.begin :: [Ev.execMig f, Ev.rollback], false) := by
      rw [migrateLoop]
      rw [if_neg (by simp), if_neg (by simp)]
    cases i with
    | zero =>
      rw [hloop0, if_neg (by simp [hfail])]
      refine ⟨rfl, ?_, ?_, ?_, ?_, ?_, ?_⟩
      · rw [List.filter_append, hpref]
        simp [Ev.isExec]
      · exact List.getLast?_append_of_ne_nil _ (by simp)
      · rw [replay_append, hst']
        rw [show replay (cleanDB ap st') [Ev.begin, Ev.execMig f, Ev.rollback]
              = cleanDB ap st' by simp [replay, stepEv, cleanDB]]
        rw [committedOnFailure]
        simp [cleanDB]
      · exact committedOnFailure_isPrefix txPerFile (f :: rest) 0
      · rw [replay_append, hst']
        rw [show replay (cleanDB ap st') [Ev.begin, Ev.execMig f, Ev.rollback]
              = cleanDB ap st' by simp [replay, stepEv, cleanDB]]
        rfl
      · rw [replay_append, hst']
        rw [show replay (cleanDB ap st') [Ev.begin, Ev.execMig f, Ev.rollback]
              = cleanDB ap st' by simp [replay, stepEv, cleanDB]]
        rfl
    | succ i =>
      rw [hloop0, if_pos (by simpa using hpre 0 (Nat.succ_pos i))]
      have hfail1 : execOk (1 + i) = false := by
        rw [show 1 + i = i + 1 from by omega]
        exact hfail
      have hpre1 : ∀ j, j < i → execOk (1 + j) = true := by
        intro j hj
        rw [show 1 + j = j + 1 from by omega]
        exact hpre (j + 1) (by omega)
      obtain ⟨h1, h2, h3⟩ :=
        migrateLoop_fail txPerFile execOk rest i 1 f.version (by simpa using hi) hfail1 hpre1
      have hreplay : replay (cleanDB ap st')
          (Ev.begin :: Ev.execMig f ::
            (migrateLoop txPerFile execOk true f.version 1 rest).1)
          = cleanDB (ap ++ commLoop txPerFile [] [f] f.version rest i) st' := by
        rw [show replay (cleanDB ap st')
              (Ev.begin :: Ev.execMig f ::
                (migrateLoop txPerFile execOk true f.version 1 rest).1)
              = replay (⟨ap, st', [f], [], true⟩ : DB)
                  (migrateLoop txPerFile execOk true f.version 1 rest).1 by
          show replay (stepEv (stepEv _ _) _) _ = _
          simp [stepEv, cleanDB]]
        exact migrateLoop_fail_replay txPerFile execOk rest i 1 f.version ap st' [f]
          (by simpa using hi) hfail1 hpre1
      refine ⟨h1, ?_, ?_, ?_, ?_, ?_, ?_⟩
      · rw [List.filter_append, hpref]
        simp only [List.nil_append, List.filter_cons, List.take_succ_cons, List.map_cons]
        simpa [Ev.isExec] using h2
      · refine List.getLast?_append_of_ne_nil _ ?_ |>.trans ?_
        · intro hnil
          cases hnil
        · exact getLast?_cons_of_getLast? _ _ _ (getLast?_cons_of_getLast? _ _ _ h3)
      · rw [replay_append, hst', hreplay, committedOnFailure]
        rfl
      · exact committedOnFailure_isPrefix txPerFile (f :: rest) (i + 1)
      · rw [replay_append, hst', hreplay]
        rfl
      · rw [replay_append, hst', hreplay]
        rfl

/-- C4 witness: a four-migration down plan over two major versions failing
at position 2 (per-major-version grouping): the run fails, exactly
positions 0..2 were executed, the trace ends in a rollback, and only the
first transaction's two migrations (the major-1 block, committed at the
major boundary) remain applied. -/
theorem c4_witness :
    (2 < ([(mkMF 1 2 []).migration Direction.down, (mkMF 1 1 []).migration Direction.down,
          (mkMF 0 2 []).migration Direction.down,
          (mkMF 0 1 []).migration Direction.down] : List Migration).length) ∧
    ((migrateFiles false (fun j => j != 2) [] []
        [(mkMF 1 2 []).migration Direction.down, (mkMF 1 1 []).migration Direction.down,
         (mkMF 0 2 []).migration Direction.down,
         (mkMF 0 1 []).migration Direction.down]).2 = false) ∧
    ((replay (cleanDB [] [])
        (migrateFiles false (fun j => j != 2) [] []
          [(mkMF 1 2 []).migration Direction.down, (mkMF 1 1 []).migration Direction.down,
           (mkMF 0 2 []).migration Direction.down,
           (mkMF 0 1 []).migration Direction.down]).1).applied
      = [] ++ committedOnFailure false
          [(mkMF 1 2 []).migration Direction.down, (mkMF 1 1 []).migration Direction.down,
           (mkMF 0 2 []).migration Direction.down,
           (mkMF 0 1 []).migration Direction.down] 2) := by
  refine ⟨by decide, ?_, ?_⟩
  · exact (c4_failure_rollback false (fun j => j != 2) [] []
      [(mkMF 1 2 []).migration Direction.down, (mkMF 1 1 []).migration Direction.down,
       (mkMF 0 2 []).migration Direction.down, (mkMF 0 1 []).migration Direction.down]
      2 [] [] (by decide) (by decide) (by decide)).1
  · exact (c4_failure_rollback false (fun j => j != 2) [] []
      [(mkMF 1 2 []).migration Direction.down, (mkMF 1 1 []).migration Direction.down,
       (mkMF 0 2 []).migration Direction.down, (mkMF 0 1 []).migration Direction.down]
      2 [] [] (by decide) (by decide) (by decide)).2.2.2.1

theorem errItem_mem_runItems (r : List Ev × Option MErr) :
    Item.errItem ∈ runItems r ↔ r.2.isSome := by
  unfold runItems
  cases r.2 with
  | none => simp [List.mem_map]
  | some e => simp [List.mem_append, List.mem_map]

/-- C1. `Redo` runs `Migrate(-1)`, waits on its event stream, and starts
`Migrate(+1)` only if that wait succeeded: whenever the down-half's stream
carries an error item or a cancellation is observed before it closes, the
up half never starts (and the outer pipe is closed instead); otherwise the
up half runs.  (The pipe package is not among the sources; `waitAndRedirect`
and `runItems` are modelled from the spec, §4.4.) -/
theorem c1_redo_down_gates_up (v2 txPerFile force : Bool)
    (execOkDown execOkUp : Nat → Bool)
    (prevFiles files prevFilesAfter : List MigrationFile) (cancelled : Bool) :
    ((Item.errItem ∈ runItems (MigrateRel v2 txPerFile force execOkDown prevFiles files (-1))
        ∨ cancelled = true) →
      (Redo v2 txPerFile force execOkDown execOkUp prevFiles files prevFilesAfter
        cancelled).upStarted = false ∧
      (Redo v2 txPerFile force execOkDown execOkUp prevFiles files prevFilesAfter
        cancelled).upRun = none) ∧
    (((Item.errItem ∉ runItems (MigrateRel v2 txPerFile force execOkDown prevFiles files (-1)))
        ∧ cancelled = false) →
      (Redo v2 txPerFile force execOkDown execOkUp prevFiles files prevFilesAfter
        cancelled).upStarted = true ∧
      (Redo v2 txPerFile force execOkDown execOkUp prevFiles files prevFilesAfter
        cancelled).upRun
        = some (MigrateRel v2 txPerFile force execOkUp prevFilesAfter files 1)) := by
  constructor
  · intro h
    rw [Redo]
    rw [if_neg ?_]
    · exact ⟨rfl, rfl⟩
    · rw [waitAndRedirect]
      rcases h with h | h
      · simp [h]
      · simp [h]
  · intro h
    obtain ⟨h1, h2⟩ := h
    rw [Redo]
    rw [if_pos ?_]
    · exact ⟨rfl, rfl⟩
    · rw [waitAndRedirect, h2]
      simp [h1]

/-- C1 witness: a failing down half (its single migration's script fails,
so the stream carries an error item) never starts the up half; a clean down
half (everything succeeds, no cancellation) starts it. -/
theorem c1_witness :
    ((Item.errItem ∈ runItems
        (MigrateRel false false false (fun _ => false) [mkMF 0 1 [1]] [mkMF 0 1 [1]] (-1))
      ∨ false = true) ∧
      (Redo false false false (fun _ => false) (fun _ => true)
        [mkMF 0 1 [1]] [mkMF 0 1 [1]] [] false).upStarted = false) ∧
    ((Item.errItem ∉ runItems
        (MigrateRel false false false (fun _ => true) [mkMF 0 1 [1]] [mkMF 0 1 [1]] (-1))
      ∧ false = false) ∧
      (Redo false false false (fun _ => true) (fun _ => true)
        [mkMF 0 1 [1]] [mkMF 0 1 [1]] [] false).upStarted = true) :=
  ⟨⟨Or.inl (by decide),
    ((c1_redo_down_gates_up false false false (fun _ => false) (fun _ => true)
      [mkMF 0 1 [1]] [mkMF 0 1 [1]] [] false).1 (Or.inl (by decide))).1⟩,
   ⟨⟨by decide, rfl⟩,
    ((c1_redo_down_gates_up false false false (fun _ => true) (fun _ => true)
      [mkMF 0 1 [1]] [mkMF 0 1 [1]] [] false).2 ⟨by decide, rfl⟩).1⟩⟩

theorem lookupSchema_drop_self (st : SchemaState) (x : String) :
    lookupSchema (dropSchemaEffect st x) x = none := by
  induction st with
  | nil => rfl
  | cons p rest ih =>
    by_cases hp : p.1 = x
    · rw [dropSchemaEffect, List.filter_cons_of_neg (by simp [hp])]
      exact ih
    · rw [dropSchemaEffect, List.filter_cons_of_pos (by simp [hp])]
      rw [lookupSchema, List.find?_cons_of_neg _ (by simp [hp])]
      exact ih

theorem lookupSchema_drop_ne (st : SchemaState) (x y : String) (h : y ≠ x) :
    lookupSchema (dropSchemaEffect st x) y = lookupSchema st y := by
  induction st with
  | nil => rfl
  | cons p rest ih =>
    by_cases hp : p.1 = x
    · have hpy : ¬p.1 = y := by
        rw [hp]
        exact fun he => h he.symm
      rw [dropSchemaEffect, List.filter_cons_of_neg (by simp [hp])]
      rw [show lookupSchema (p :: rest) y = lookupSchema rest y from by
        rw [lookupSchema, List.find?_cons_of_neg _ (by simp [hpy])]
        rfl]
      exact ih
    · rw [dropSchemaEffect, List.filter_cons_of_pos (by simp [hp])]
      by_cases hpy : p.1 = y
      · rw [lookupSchema, List.find?_cons_of_pos _ (by simp [hpy])]
        rw [show lookupSchema (p :: rest) y = some p.2 from by
          rw [lookupSchema, List.find?_cons_of_pos _ (by simp [hpy])]
          rfl]
        rfl
      · rw [lookupSchema, List.find?_cons_of_neg _ (by simp [hpy])]
        rw [show lookupSchema (p :: rest) y = lookupSchema rest y from by
          rw [lookupSchema, List.find?_cons_of_neg _ (by simp [hpy])]
          rfl]
        exact ih

theorem lookupSchema_append (s r : SchemaState) (y : String) :
    lookupSchema (s ++ r) y =
      (match lookupSchema s y with
       | some v => some v
       | none => lookupSchema r y) := by
  induction s with
  | nil => rfl
  | cons p rest ih =>
    by_cases hp : p.1 = y
    · rw [List.cons_append, lookupSchema, List.find?_cons_of_pos _ (by simp [hp])]
      rw [show lookupSchema (p :: rest) y = some p.2 from by
        rw [lookupSchema, List.find?_cons_of_pos _ (by simp [hp])]
        rfl]
      rfl
    · rw [List.cons_append, lookupSchema, List.find?_cons_of_neg _ (by simp [hp])]
      rw [show lookupSchema (p :: rest) y = lookupSchema rest y from by
        rw [lookupSchema, List.find?_cons_of_neg _ (by simp [hp])]
        rfl]
      exact ih

theorem lookupSchema_singleton (d : String) (v : Nat) (y : String) :
    lookupSchema [(d, v)] y = if d = y then some v else none := by
  by_cases h : d = y
  · rw [if_pos h, lookupSchema, List.find?_cons_of_pos _ (by simp [h])]
    rfl
  · rw [if_neg h, lookupSchema, List.find?_cons_of_neg _ (by simp [h])]
    rfl

theorem rename_lookups (st : SchemaState) (src dst other : String)
    (hds : dst ≠ src) (hos : other ≠ src) (hod : other ≠ dst)
    (hdst : lookupSchema st dst = none) :
    lookupSchema (renameSchemaEffect st src dst) dst = lookupSchema st src ∧
    lookupSchema (renameSchemaEffect st src dst) src = none ∧
    lookupSchema (renameSchemaEffect st src dst) other = lookupSchema st other := by
  rw [renameSchemaEffect]
  cases hl : lookupSchema st src with
  | none => exact ⟨hdst, hl, rfl⟩
  | some id =>
    refine ⟨?_, ?_, ?_⟩
    · rw [lookupSchema_append]
      rw [lookupSchema_drop_ne st src dst hds, hdst]
      rw [lookupSchema_singleton]
      rw [if_pos rfl]
    · rw [lookupSchema_append]
      rw [lookupSchema_drop_self]
      rw [lookupSchema_singleton]
      rw [if_neg hds]
    · rw [lookupSchema_append]
      rw [lookupSchema_drop_ne st src other hos]
      cases ho : lookupSchema st other with
      | some w => rfl
      | none =>
        rw [lookupSchema_singleton]
        rw [if_neg (fun he => hod he.symm)]

/-- C7. Schema rotation is all-or-nothing: `rotateSchemas` runs the drop of
the oldest slot and the renames of the 3-slot rotation inside one
transaction wrapped by `WithTransaction`, which commits only when every
statement succeeded and rolls back otherwise — whenever the run fails (any
statement failing per the oracle), every schema name keeps its pre-rotation
assignment; when every statement succeeds, the three names rotate: the
backup slot receives the live schema, the live slot receives the tmp
schema, and the tmp name is gone. -/
theorem c7_rotation_atomic (st : SchemaState) (b l t : String) (oracle : Nat → Bool) :
    ((rotateSchemas st [b, l, t] oracle).2 = false →
      (rotateSchemas st [b, l, t] oracle).1 = st) ∧
    ((∀ k, oracle k = true) → b ≠ l → l ≠ t → b ≠ t →
      (rotateSchemas st [b, l, t] oracle).2 = true ∧
      lookupSchema (rotateSchemas st [b, l, t] oracle).1 b = lookupSchema st l ∧
      lookupSchema (rotateSchemas st [b, l, t] oracle).1 l = lookupSchema st t ∧
      lookupSchema (rotateSchemas st [b, l, t] oracle).1 t = none) := by
  constructor
  · intro hfail
    rw [rotateSchemas]
    by_cases h0 : oracle 0 = true
    · rw [if_pos h0, WithTransaction]
      cases hfn : (if oracle 1 = true
          then rotateLoop oracle (dropSchemaEffect st b) b 2 [l, t]
          else (st, false)) with
      | mk st2 ok =>
        cases ok with
        | true =>
          exfalso
          rw [rotateSchemas, if_pos h0, WithTransaction, hfn] at hfail
          simp at hfail
        | false => rfl
    · rw [if_neg h0]
  · intro hall hbl hlt hbt
    rw [rotateSchemas, if_pos (hall 0), WithTransaction]
    rw [show (if oracle 1 = true
          then rotateLoop oracle (dropSchemaEffect st b) b 2 [l, t]
          else (st, false))
        = rotateLoop oracle (dropSchemaEffect st b) b 2 [l, t] from if_pos (hall 1)]
    rw [rotateLoop, if_pos (hall 2), rotateLoop, if_pos (hall 3), rotateLoop]
    have s1b : lookupSchema (dropSchemaEffect st b) b = none := lookupSchema_drop_self st b
    have s1l : lookupSchema (dropSchemaEffect st b) l = lookupSchema st l :=
      lookupSchema_drop_ne st b l (fun he => hbl he.symm)
    have s1t : lookupSchema (dropSchemaEffect st b) t = lookupSchema st t :=
      lookupSchema_drop_ne st b t (fun he => hbt he.symm)
    obtain ⟨s2b, s2l, s2t⟩ :=
      rename_lookups (dropSchemaEffect st b) l b t
        hbl (Ne.symm hlt) (Ne.symm hbt) s1b
    rw [s1l] at s2b
    rw [s1t] at s2t
    obtain ⟨s3l, s3t, s3b⟩ :=
      rename_lookups (renameSchemaEffect (dropSchemaEffect st b) l b) t l b
        hlt hbt hbl s2l
    rw [s2t] at s3l
    rw [s2b] at s3b
    cases hrot : (rotateLoop oracle
        (renameSchemaEffect (renameSchemaEffect (dropSchemaEffect st b) l b) t l) l 4
        ([] : List String)) with
    | mk stE okE =>
      rw [rotateLoop] at hrot
      cases hrot
      exact ⟨rfl, s3b, s3l, s3t⟩

/-- C7 witness: a rotation whose last rename fails leaves the concrete
3-slot assignment untouched. -/
theorem c7_witness :
    (rotateSchemas [("b", 1), ("l", 2), ("t", 3)] ["b", "l", "t"]
      (fun k => k != 3)).2 = false ∧
    (rotateSchemas [("b", 1), ("l", 2), ("t", 3)] ["b", "l", "t"]
      (fun k => k != 3)).1 = [("b", 1), ("l", 2), ("t", 3)] :=
  ⟨by decide,
   (c7_rotation_atomic [("b", 1), ("l", 2), ("t", 3)] "b" "l" "t" (fun k => k != 3)).1
     (by decide)⟩

end Migrate
